import Mathlib

/- Verification of the hetbuilder backend math kernel
   (src/backend/math_functions.cpp) through a shallow embedding.
   C++ `int` arithmetic is embedded over ℤ, with `Int.tmod` standing for the
   C++ truncated `%` operator; `double` arithmetic is embedded over ℝ (for the
   trigonometric rotation) and over ℚ (for the exact 3x3 linear algebra);
   `std::vector` arguments become lists or functions out of `Fin n`.
   The Lattice Enumerator component has no source under src/, so it is
   modelled from the specification where a claim needs it. -/

/-- Absolute value of the truncated remainder: |Int.tmod b a| = |b| % |a|,
matching the C++ identity b % a = sign(b) * (|b| mod |a|). -/
theorem natAbs_tmod (b a : ℤ) : (Int.tmod b a).natAbs = b.natAbs % a.natAbs := by
  cases b <;> cases a <;> simp [Int.tmod, Int.natAbs_neg] <;> rfl

/-- For a nonzero divisor the truncated remainder strictly shrinks in absolute
value, which is the decreasing measure of the C++ recursion in get_gcd. -/
theorem natAbs_tmod_lt (b a : ℤ) (h : a ≠ 0) : (Int.tmod b a).natAbs < a.natAbs := by
  rw [natAbs_tmod]
  exact Nat.mod_lt _ (Int.natAbs_pos.mpr h)

/-- Embedding of get_gcd from math_functions.cpp:
`if (a == 0) return b; return get_gcd(b % a, a);` with C++ truncated `%`. -/
def get_gcd (a b : ℤ) : ℤ :=
  if a = 0 then b
  else get_gcd (Int.tmod b a) a
termination_by a.natAbs
decreasing_by exact natAbs_tmod_lt b a (by assumption)

theorem get_gcd_zero_left (b : ℤ) : get_gcd 0 b = b := by
  rw [get_gcd]
  simp

theorem get_gcd_rec (a b : ℤ) (h : a ≠ 0) :
    get_gcd a b = get_gcd (Int.tmod b a) a := by
  rw [get_gcd]
  simp [h]

/-- The absolute value of get_gcd is the mathematical gcd of the absolute
values of its arguments. -/
theorem natAbs_get_gcd (a b : ℤ) : (get_gcd a b).natAbs = Nat.gcd a.natAbs b.natAbs := by
  induction a, b using get_gcd.induct with
  | case1 b => simp [get_gcd]
  | case2 a b h ih =>
      rw [get_gcd, if_neg h, ih, natAbs_tmod, ← Nat.gcd_rec]

/-- On nonnegative arguments get_gcd stays nonnegative. -/
theorem get_gcd_nonneg (a b : ℤ) (ha : 0 ≤ a) (hb : 0 ≤ b) : 0 ≤ get_gcd a b := by
  induction a, b using get_gcd.induct with
  | case1 b => simpa [get_gcd_zero_left] using hb
  | case2 a b h ih => rw [get_gcd_rec a b h]; exact ih (Int.tmod_nonneg a hb) ha

/-- On nonnegative arguments get_gcd computes the mathematical gcd. -/
theorem get_gcd_eq_gcd (a b : ℤ) (ha : 0 ≤ a) (hb : 0 ≤ b) :
    get_gcd a b = Int.gcd a b := by
  have h1 := natAbs_get_gcd a b
  have h2 := get_gcd_nonneg a b ha hb
  rw [← Int.natAbs_of_nonneg h2, h1]
  rfl

/-- get_gcd returns 0 exactly when both arguments are 0. -/
theorem get_gcd_eq_zero_iff (a b : ℤ) : get_gcd a b = 0 ↔ a = 0 ∧ b = 0 := by
  rw [← Int.natAbs_eq_zero, natAbs_get_gcd, Nat.gcd_eq_zero_iff,
    Int.natAbs_eq_zero, Int.natAbs_eq_zero]

theorem get_gcd_zero_right (a : ℤ) : get_gcd a 0 = a := by
  by_cases h : a = 0
  · subst h; exact get_gcd_zero_left 0
  · rw [get_gcd_rec a 0 h, Int.zero_tmod, get_gcd_zero_left]

/-- When the dividend is smaller than the divisor in absolute value, the
truncated remainder is the dividend itself. -/
theorem tmod_eq_self_of_natAbs_lt (b a : ℤ) (h : b.natAbs < a.natAbs) :
    Int.tmod b a = b := by
  cases b <;> cases a <;>
    simp only [Int.tmod, Int.natAbs_ofNat, Int.natAbs_negSucc, Int.ofNat_eq_coe] at h ⊢ <;>
    rw [Nat.mod_eq_of_lt (by omega)] <;> rfl

/-- When both arguments have equal absolute value, the truncated remainder
is zero. -/
theorem tmod_eq_zero_of_natAbs_eq (b a : ℤ) (h : b.natAbs = a.natAbs) :
    Int.tmod b a = 0 := by
  have h1 := natAbs_tmod b a
  rw [h, Nat.mod_self] at h1
  exact Int.natAbs_eq_zero.mp h1

/-- get_gcd is symmetric except on the pairs (a, -a) with a nonzero. -/
theorem get_gcd_symm (a b : ℤ) (h : a = b ∨ a ≠ -b) : get_gcd a b = get_gcd b a := by
  by_cases ha : a = 0
  · subst ha; rw [get_gcd_zero_left, get_gcd_zero_right]
  by_cases hb : b = 0
  · subst hb; rw [get_gcd_zero_left, get_gcd_zero_right]
  rcases lt_trichotomy a.natAbs b.natAbs with hlt | heq | hgt
  · rw [get_gcd_rec b a hb, tmod_eq_self_of_natAbs_lt a b hlt]
  · have := Int.natAbs_eq_natAbs_iff.mp heq
    rcases this with rfl | hneg
    · rfl
    · rcases h with rfl | hne
      · rfl
      · exact absurd hneg hne
  · rw [get_gcd_rec a b ha, tmod_eq_self_of_natAbs_lt b a hgt]

/-- Embedding of the loop of find_gcd from math_functions.cpp:
`for (int i = 1; i < n; i++) { result = get_gcd(arr[i], result); if (result == 1) return 1; }`. -/
def find_gcd_loop (arr : List ℤ) (n : ℕ) (i : ℕ) (result : ℤ) : ℤ :=
  if i < n then
    let r := get_gcd (arr.getD i 0) result
    if r = 1 then 1 else find_gcd_loop arr n (i + 1) r
  else result
termination_by n - i
decreasing_by omega

/-- Embedding of find_gcd from math_functions.cpp: `result = arr[0]` then the
loop over indices 1 to n - 1. -/
def find_gcd (arr : List ℤ) (n : ℕ) : ℤ :=
  find_gcd_loop arr n 1 (arr.getD 0 0)

/-- Unfolding of one executed loop iteration. -/
theorem find_gcd_loop_step (arr : List ℤ) (n i : ℕ) (result : ℤ) (hin : i < n) :
    find_gcd_loop arr n i result =
      if get_gcd (arr.getD i 0) result = 1 then 1
      else find_gcd_loop arr n (i + 1) (get_gcd (arr.getD i 0) result) := by
  rw [find_gcd_loop, if_pos hin]

/-- Unfolding of loop exit. -/
theorem find_gcd_loop_done (arr : List ℤ) (n i : ℕ) (result : ℤ) (hin : ¬i < n) :
    find_gcd_loop arr n i result = result := by
  rw [find_gcd_loop, if_neg hin]

/-- Loop invariant: the running fold is zero exactly when the accumulator and
every remaining scanned element are zero. -/
theorem find_gcd_loop_eq_zero_iff (arr : List ℤ) (n i : ℕ) (result : ℤ) :
    find_gcd_loop arr n i result = 0 ↔
      (result = 0 ∧ ∀ j, i ≤ j → j < n → arr.getD j 0 = 0) := by
  induction i, result using find_gcd_loop.induct arr n with
  | case1 i result hin r hr1 =>
      have hr : get_gcd (arr.getD i 0) result = 1 := hr1
      rw [find_gcd_loop_step arr n i result hin, if_pos hr]
      constructor
      · intro h; exact absurd h one_ne_zero
      · rintro ⟨hres, hall⟩
        have hi := hall i le_rfl hin
        rw [hi, hres, get_gcd_zero_left] at hr
        exact absurd hr.symm one_ne_zero
  | case2 i result hin r hr1 ih =>
      have hr : ¬get_gcd (arr.getD i 0) result = 1 := hr1
      have ih2 : find_gcd_loop arr n (i + 1) (get_gcd (arr.getD i 0) result) = 0 ↔
          (get_gcd (arr.getD i 0) result = 0 ∧
            ∀ j, i + 1 ≤ j → j < n → arr.getD j 0 = 0) := ih
      rw [find_gcd_loop_step arr n i result hin, if_neg hr, ih2, get_gcd_eq_zero_iff]
      constructor
      · rintro ⟨⟨hi, hres⟩, hall⟩
        refine ⟨hres, fun j hj1 hj2 => ?_⟩
        rcases Nat.eq_or_lt_of_le hj1 with rfl | hj3
        · exact hi
        · exact hall j hj3 hj2
      · rintro ⟨hres, hall⟩
        exact ⟨⟨hall i le_rfl hin, hres⟩, fun j hj1 hj2 => hall j (by omega) hj2⟩
  | case3 i result hin =>
      rw [find_gcd_loop_done arr n i result hin]
      constructor
      · intro h; exact ⟨h, fun j hj1 hj2 => absurd (by omega : i < n) hin⟩
      · rintro ⟨hres, _⟩; exact hres

/-- Claim C2 counterexample: get_gcd is not symmetric on every pair of
integers; at (1, -1) the two orders give 1 and -1. -/
theorem C2_counterexample :
    get_gcd 1 (-1) = 1 ∧ get_gcd (-1) 1 = -1 ∧ get_gcd 1 (-1) ≠ get_gcd (-1) 1 := by
  have h1 : get_gcd 1 (-1) = 1 := by
    rw [get_gcd_rec 1 (-1) one_ne_zero, show Int.tmod (-1) 1 = 0 from by decide,
      get_gcd_zero_left]
  have h2 : get_gcd (-1) 1 = -1 := by
    rw [get_gcd_rec (-1) 1 (by decide), show Int.tmod 1 (-1) = 0 from by decide,
      get_gcd_zero_left]
  exact ⟨h1, h2, by rw [h1, h2]; decide⟩

/-- Claim C2 (amended): get_gcd(a, b) = get_gcd(b, a) for every pair of
integers except the pairs (a, -a) with a nonzero, where the two orders agree
only up to sign; get_gcd(a, 0) = a for every integer a; and
get_gcd(0, 0) = 0 is the degenerate case. -/
theorem C2_get_gcd_symmetry_amended (a b : ℤ) (h : a = b ∨ a ≠ -b) :
    get_gcd a b = get_gcd b a ∧ get_gcd a 0 = a ∧ get_gcd (0 : ℤ) 0 = 0 :=
  ⟨get_gcd_symm a b h, get_gcd_zero_right a, get_gcd_zero_left 0⟩

/-- Witness for the amended claim C2 at the concrete pair (6, -4). -/
theorem C2_witness :
    get_gcd 6 (-4) = get_gcd (-4) 6 ∧ get_gcd 6 0 = 6 ∧ get_gcd (0 : ℤ) 0 = 0 :=
  C2_get_gcd_symmetry_amended 6 (-4) (Or.inr (by decide))

/-- Claim C3: under the documented precondition 1 <= n <= length arr,
find_gcd returns 0 exactly when the first n elements are all zero, and is
nonzero as soon as one of the first n elements is nonzero. -/
theorem C3_find_gcd_zero_only_when_all_zero (arr : List ℤ) (n : ℕ)
    (h1 : 1 ≤ n) (h2 : n ≤ arr.length) :
    (find_gcd arr n = 0 ↔ ∀ i, i < n → arr.getD i 0 = 0) ∧
    ∀ i, i < n → arr.getD i 0 ≠ 0 → find_gcd arr n ≠ 0 := by
  have key : find_gcd arr n = 0 ↔ ∀ i, i < n → arr.getD i 0 = 0 := by
    rw [find_gcd, find_gcd_loop_eq_zero_iff]
    constructor
    · rintro ⟨h0, hall⟩ i hi
      rcases Nat.eq_zero_or_pos i with rfl | hpos
      · exact h0
      · exact hall i hpos hi
    · intro hall
      exact ⟨hall 0 h1, fun j hj1 hj2 => hall j hj2⟩
  exact ⟨key, fun i hi hne h0 => hne ((key.mp h0) i hi)⟩

/-- Witness for claim C3 on the concrete sequence [0, 3] with n = 2. -/
theorem C3_witness :
    (find_gcd [0, 3] 2 = 0 ↔ ∀ i, i < 2 → ([0, 3] : List ℤ).getD i 0 = 0) ∧
    ∀ i, i < 2 → ([0, 3] : List ℤ).getD i 0 ≠ 0 → find_gcd [0, 3] 2 ≠ 0 :=
  C3_find_gcd_zero_only_when_all_zero [0, 3] 2 (by decide) (by decide)

/-- Claim C6 counterexample: at (2, -3) get_gcd returns -1, which is not the
greatest common divisor, since the common divisor 1 exceeds it. -/
theorem C6_counterexample :
    get_gcd 2 (-3) = -1 ∧ (1 : ℤ) ∣ 2 ∧ (1 : ℤ) ∣ (-3) ∧
      ¬(1 : ℤ) ≤ get_gcd 2 (-3) := by
  have h1 : get_gcd 2 (-3) = -1 := by
    rw [get_gcd_rec 2 (-3) two_ne_zero, show Int.tmod (-3) 2 = -1 from by decide,
      get_gcd_rec (-1) 2 (by decide), show Int.tmod 2 (-1) = 0 from by decide,
      get_gcd_zero_left]
  refine ⟨h1, one_dvd _, one_dvd _, ?_⟩
  rw [h1]
  decide

/-- Claim C6 (amended): get_gcd(0, b) = b for every integer b, and on
nonnegative arguments get_gcd returns the greatest common divisor: it divides
both arguments and, when they are not both zero, every common divisor is at
most the result. -/
theorem C6_get_gcd_is_gcd_amended :
    (∀ b : ℤ, get_gcd 0 b = b) ∧
    ∀ a b : ℤ, 0 ≤ a → 0 ≤ b →
      (get_gcd a b ∣ a ∧ get_gcd a b ∣ b ∧
        ((a ≠ 0 ∨ b ≠ 0) → ∀ c : ℤ, c ∣ a → c ∣ b → c ≤ get_gcd a b)) := by
  refine ⟨get_gcd_zero_left, fun a b ha hb => ?_⟩
  rw [get_gcd_eq_gcd a b ha hb]
  refine ⟨Int.gcd_dvd_left, Int.gcd_dvd_right, fun hne c hca hcb => ?_⟩
  have hpos : 0 < Int.gcd a b := Int.gcd_pos_iff.mpr hne
  exact Int.le_of_dvd (by exact_mod_cast hpos) (Int.dvd_gcd hca hcb)

/-- Witness for the amended claim C6 at b = -7 and at the pair (4, 6). -/
theorem C6_witness :
    get_gcd 0 (-7) = -7 ∧
      (get_gcd 4 6 ∣ 4 ∧ get_gcd 4 6 ∣ 6 ∧
        (((4 : ℤ) ≠ 0 ∨ (6 : ℤ) ≠ 0) → ∀ c : ℤ, c ∣ 4 → c ∣ 6 → c ≤ get_gcd 4 6)) :=
  ⟨C6_get_gcd_is_gcd_amended.1 (-7),
    C6_get_gcd_is_gcd_amended.2 4 6 (by norm_num) (by norm_num)⟩

/-- Claim C9: the recursion of get_gcd terminates because for a nonzero first
argument the truncated remainder strictly decreases in absolute value, and one
recursive step rewrites get_gcd a b to get_gcd (b % a) a. -/
theorem C9_get_gcd_termination (a b : ℤ) (h : a ≠ 0) :
    (Int.tmod b a).natAbs < a.natAbs ∧ get_gcd a b = get_gcd (Int.tmod b a) a :=
  ⟨natAbs_tmod_lt b a h, get_gcd_rec a b h⟩

/-- Witness for claim C9 at the concrete pair a = -2, b = 5. -/
theorem C9_witness :
    (Int.tmod 5 (-2)).natAbs < (-2 : ℤ).natAbs ∧
      get_gcd (-2) 5 = get_gcd (Int.tmod 5 (-2)) (-2) :=
  C9_get_gcd_termination (-2) 5 (by decide)

/-- Embedding of rotate_2d_vector from math_functions.cpp over exact reals:
the code computes `t = theta * 2 * M_PI / 180.0` and applies the matrix
with rows (cos t, -sin t) and (sin t, cos t). -/
noncomputable def rotate_2d_vector (vec : ℝ × ℝ) (theta : ℝ) : ℝ × ℝ :=
  let t := theta * 2 * Real.pi / 180
  (Real.cos t * vec.1 + -Real.sin t * vec.2,
    Real.sin t * vec.1 + Real.cos t * vec.2)

/-- Claim C1 evaluation at the failing input: the code converts theta through
the factor 2*pi/180 radians per degree, so rotating (1, 0) by theta = 90
returns (-1, 0), which is the rotation by 180 degrees, while the rotation by
90 degrees stated by the claim sends (1, 0) to (0, 1). -/
theorem C1_rotate_2d_vector_failing_input :
    rotate_2d_vector (1, 0) 90 = (-1, 0) ∧
    (Real.cos (90 * Real.pi / 180) * 1 - Real.sin (90 * Real.pi / 180) * 0,
      Real.sin (90 * Real.pi / 180) * 1 + Real.cos (90 * Real.pi / 180) * 0) =
      ((0 : ℝ), (1 : ℝ)) ∧
    ((-1 : ℝ), (0 : ℝ)) ≠ ((0 : ℝ), (1 : ℝ)) := by
  refine ⟨?_, ?_, ?_⟩
  · have hp : (90 : ℝ) * 2 * Real.pi / 180 = Real.pi := by ring
    simp [rotate_2d_vector, hp]
  · have hh : (90 : ℝ) * Real.pi / 180 = Real.pi / 2 := by ring
    simp [hh]
  · simp [Prod.ext_iff]

/-- Claim C5: rotating by angle 0 is exactly the identity, and rotating by
360 degrees returns the vector exactly in real arithmetic, hence
approximately in floating point. -/
theorem C5_rotate_identity_periodicity (v : ℝ × ℝ) :
    rotate_2d_vector v 0 = v ∧ rotate_2d_vector v 360 = v := by
  constructor
  · have h0 : (0 : ℝ) * 2 * Real.pi / 180 = 0 := by ring
    simp [rotate_2d_vector, h0]
  · have h4 : (360 : ℝ) * 2 * Real.pi / 180 = 2 * Real.pi + 2 * Real.pi := by ring
    simp [rotate_2d_vector, h4, Real.cos_add_two_pi, Real.sin_add_two_pi,
      Real.cos_two_pi, Real.sin_two_pi]

/-- Embedding of get_3x3_matrix_determinant from math_functions.cpp: the loop
`for i in 0..2: determinant += mat[0][i] * (mat[1][(i+1)%3] * mat[2][(i+2)%3]
- mat[1][(i+2)%3] * mat[2][(i+1)%3])`, with the cyclic index arithmetic
carried by Fin 3 addition. -/
def get_3x3_matrix_determinant (mat : Matrix (Fin 3) (Fin 3) ℚ) : ℚ :=
  ∑ i : Fin 3, mat 0 i * (mat 1 (i + 1) * mat 2 (i + 2) - mat 1 (i + 2) * mat 2 (i + 1))

/-- Embedding of invert_3x3_matrix from math_functions.cpp:
`minv[i][j] = (mat[(j+1)%3][(i+1)%3] * mat[(j+2)%3][(i+2)%3] -
mat[(j+1)%3][(i+2)%3] * mat[(j+2)%3][(i+1)%3]) / determinant`. -/
def invert_3x3_matrix (mat : Matrix (Fin 3) (Fin 3) ℚ) : Matrix (Fin 3) (Fin 3) ℚ :=
  Matrix.of fun i j =>
    (mat (j + 1) (i + 1) * mat (j + 2) (i + 2) -
      mat (j + 1) (i + 2) * mat (j + 2) (i + 1)) / get_3x3_matrix_determinant mat

/-- The code determinant on a matrix of generic entries. -/
theorem det3_of (a b c d e f g h i : ℚ) :
    get_3x3_matrix_determinant !![a, b, c; d, e, f; g, h, i] =
      a * (e * i - f * h) + b * (f * g - d * i) + c * (d * h - e * g) := by
  simp [get_3x3_matrix_determinant, Fin.sum_univ_three]

/-- The code determinant agrees with the mathematical determinant. -/
theorem det3_eq (mat : Matrix (Fin 3) (Fin 3) ℚ) :
    get_3x3_matrix_determinant mat = mat.det := by
  rw [Matrix.det_fin_three]
  conv_lhs => rw [Matrix.eta_fin_three mat, det3_of]
  ring

/-- On generic entries the code inverse is the adjugate scaled by the inverse
of the code determinant. -/
theorem inv3_of (a b c d e f g h i : ℚ) :
    invert_3x3_matrix !![a, b, c; d, e, f; g, h, i] =
      (get_3x3_matrix_determinant !![a, b, c; d, e, f; g, h, i])⁻¹ •
        Matrix.adjugate !![a, b, c; d, e, f; g, h, i] := by
  rw [Matrix.adjugate_fin_three_of]
  ext x y
  fin_cases x <;> fin_cases y
  all_goals simp [invert_3x3_matrix, det3_of, Matrix.smul_apply, div_eq_inv_mul]
  all_goals exact Or.inl (by ring)

/-- The code inverse is the adjugate divided by the determinant. -/
theorem inv3_eq_adj (mat : Matrix (Fin 3) (Fin 3) ℚ) :
    invert_3x3_matrix mat = (get_3x3_matrix_determinant mat)⁻¹ • mat.adjugate := by
  rw [Matrix.eta_fin_three mat]
  exact inv3_of _ _ _ _ _ _ _ _ _

/-- For a nonsingular matrix the code inverse is a left inverse. -/
theorem inv3_mul (mat : Matrix (Fin 3) (Fin 3) ℚ) (h : mat.det ≠ 0) :
    invert_3x3_matrix mat * mat = 1 := by
  rw [inv3_eq_adj, det3_eq, Matrix.smul_mul, Matrix.adjugate_mul, smul_smul,
    inv_mul_cancel₀ h, one_smul]

/-- Claim C4: get_3x3_matrix_determinant computes the mathematical
determinant, and when that determinant is nonzero invert_3x3_matrix is the
adjugate divided by the determinant and is a left inverse of the matrix. -/
theorem C4_determinant_and_inverse (mat : Matrix (Fin 3) (Fin 3) ℚ) :
    get_3x3_matrix_determinant mat = mat.det ∧
    (mat.det ≠ 0 →
      invert_3x3_matrix mat * mat = 1 ∧
      invert_3x3_matrix mat = (mat.det)⁻¹ • mat.adjugate) :=
  ⟨det3_eq mat, fun h =>
    ⟨inv3_mul mat h, by rw [inv3_eq_adj, det3_eq]⟩⟩

/-- Witness for claim C4 at the identity matrix, whose determinant 1 is
nonzero. -/
theorem C4_witness :
    get_3x3_matrix_determinant (1 : Matrix (Fin 3) (Fin 3) ℚ) =
      (1 : Matrix (Fin 3) (Fin 3) ℚ).det ∧
    (invert_3x3_matrix (1 : Matrix (Fin 3) (Fin 3) ℚ) * 1 = 1 ∧
      invert_3x3_matrix (1 : Matrix (Fin 3) (Fin 3) ℚ) =
        ((1 : Matrix (Fin 3) (Fin 3) ℚ).det)⁻¹ •
          (1 : Matrix (Fin 3) (Fin 3) ℚ).adjugate) :=
  ⟨(C4_determinant_and_inverse 1).1,
    (C4_determinant_and_inverse 1).2 (by simp)⟩

/-- Embedding of vec1x3_dot_3x3_matrix from math_functions.cpp over ℤ:
`b = vector(3, 0)` then `for i in 0..a.size()-1:
b[i] = a[0]*matrix[0][i] + a[1]*matrix[1][i] + a[2]*matrix[2][i]`.
Reads that are out of bounds in the C++ are modelled with default 0, and
List.set ignores the out-of-bounds writes; the access-safety claim is stated
separately through vec1x3_in_bounds. -/
def vec1x3_dot_3x3_matrix (a : List ℤ) (m : List (List ℤ)) : List ℤ :=
  (List.range a.length).foldl
    (fun b i =>
      b.set i (a.getD 0 0 * (m.getD 0 []).getD i 0 + a.getD 1 0 * (m.getD 1 []).getD i 0 +
        a.getD 2 0 * (m.getD 2 []).getD i 0))
    (List.replicate 3 0)

/-- Access-safety model of vec1x3_dot_3x3_matrix: each executed loop
iteration i < a.length reads a[0], a[1] and a[2] (needs a.length > 2), writes
b[i] into the length-3 result (needs i < 3) and reads matrix[k][i] for
k = 0, 1, 2 (needs k < m.length and i below the length of row k). -/
def vec1x3_in_bounds (a : List ℤ) (m : List (List ℤ)) : Prop :=
  ∀ i, i < a.length →
    (2 < a.length ∧ i < 3 ∧ ∀ k, k < 3 → (k < m.length ∧ i < (m.getD k []).length))

/-- Claim C10 counterexample: for the empty vector and the empty matrix the
loop body never executes, so every access is vacuously in bounds although
the vector does not have length 3 and the matrix is not 3x3. -/
theorem C10_counterexample :
    vec1x3_in_bounds ([] : List ℤ) ([] : List (List ℤ)) ∧
      ¬(([] : List ℤ).length = 3 ∧ 2 < ([] : List (List ℤ)).length ∧
        ∀ k, k < 3 → 2 < ((([] : List (List ℤ)).getD k []).length)) := by
  constructor
  · intro i hi
    simp at hi
  · rintro ⟨h3, _⟩
    simp at h3

/-- Claim C10 (amended): vec1x3_dot_3x3_matrix performs only in-bounds
accesses exactly when the vector argument is empty (the loop never runs) or
has length exactly 3 with a matrix of at least 3 rows each of length at
least 3; and whenever the vector has length 3 the function returns the
row-vector-times-matrix product b with
b[i] = a[0]*matrix[0][i] + a[1]*matrix[1][i] + a[2]*matrix[2][i]. -/
theorem C10_vec1x3_amended (a : List ℤ) (m : List (List ℤ)) :
    (vec1x3_in_bounds a m ↔
      (a = [] ∨ (a.length = 3 ∧ 2 < m.length ∧ ∀ k, k < 3 → 2 < ((m.getD k []).length)))) ∧
    (a.length = 3 →
      vec1x3_dot_3x3_matrix a m =
        [a.getD 0 0 * (m.getD 0 []).getD 0 0 + a.getD 1 0 * (m.getD 1 []).getD 0 0 +
            a.getD 2 0 * (m.getD 2 []).getD 0 0,
          a.getD 0 0 * (m.getD 0 []).getD 1 0 + a.getD 1 0 * (m.getD 1 []).getD 1 0 +
            a.getD 2 0 * (m.getD 2 []).getD 1 0,
          a.getD 0 0 * (m.getD 0 []).getD 2 0 + a.getD 1 0 * (m.getD 1 []).getD 2 0 +
            a.getD 2 0 * (m.getD 2 []).getD 2 0]) := by
  constructor
  · constructor
    · intro h
      rcases List.eq_nil_or_concat a with rfl | hne
      · exact Or.inl rfl
      · have hlen : 0 < a.length := by
          rcases hne with ⟨l, x, rfl⟩
          simp
        have h0 := h 0 hlen
        have hlen3 : a.length = 3 := by
          rcases Nat.lt_or_ge a.length 4 with h4 | h4
          · omega
          · have := (h 3 (by omega)).2.1
            omega
        have h2 := h 2 (by omega)
        refine Or.inr ⟨hlen3, (h2.2.2 2 (by omega)).1, fun k hk => (h2.2.2 k hk).2⟩
    · rintro (rfl | ⟨h3, hm, hrow⟩)
      · intro i hi
        simp at hi
      · intro i hi
        rw [h3] at hi
        refine ⟨by omega, hi, fun k hk => ⟨by omega, ?_⟩⟩
        have := hrow k hk
        omega
  · intro h3
    match a, h3 with
    | [a0, a1, a2], _ => rfl

/-- Witness for the amended claim C10 at a concrete length-3 vector and 3x3
matrix. -/
theorem C10_witness :
    vec1x3_dot_3x3_matrix [1, 2, 3] [[4, 5, 6], [7, 8, 9], [10, 11, 12]] =
      [48, 54, 60] := by
  have h := (C10_vec1x3_amended [1, 2, 3] [[4, 5, 6], [7, 8, 9], [10, 11, 12]]).2 (by decide)
  rw [h]
  decide

/-- Determinant of a 2x2 integer transformation matrix given as the tuple
(m11, m12, m21, m22). -/
def det2x2 (M : ℤ × ℤ × ℤ × ℤ) : ℤ := M.1 * M.2.2.2 - M.2.1 * M.2.2.1

/-- The sublattice of ℤ x ℤ generated by the rows (m11, m12) and (m21, m22)
of a transformation matrix: the set of integer combinations of the two rows.
Two transformation matrices generate the same sublattice exactly when these
sets coincide. -/
def row_span (M : ℤ × ℤ × ℤ × ℤ) : Set (ℤ × ℤ) :=
  setOf fun v => ∃ x y : ℤ, v = (x * M.1 + y * M.2.2.1, x * M.2.1 + y * M.2.2.2)

/-- Modelled from the spec: the Lattice Enumerator (spec section 4.2) has no
source under src/ (only the math kernel and logging are present). Following
the specification, for a caller-supplied maximum supercell multiple nmax it
enumerates one Hermite-normal-form representative per generated sublattice:
the upper-triangular matrices (a, b; 0, d) with a >= 1, d >= 1,
a * d <= nmax and 0 <= b < d, ordered by the loop nest. -/
def enumerate_transformations (nmax : ℕ) : List (ℤ × ℤ × ℤ × ℤ) :=
  ((List.range nmax).map (fun a => a + 1)).flatMap fun a : ℕ =>
    ((List.range (nmax / a)).map (fun d => d + 1)).flatMap fun d : ℕ =>
      (List.range d).map fun b : ℕ => ((a : ℤ), (b : ℤ), 0, (d : ℤ))

/-- Strict bound against a truncated division, phrased multiplicatively. -/
theorem lt_div_iff_succ_mul_le (nmax a d : ℕ) (ha : 0 < a) :
    d < nmax / a ↔ (d + 1) * a ≤ nmax := by
  rw [Nat.lt_iff_add_one_le, Nat.le_div_iff_mul_le ha]

/-- Membership in the enumerator output characterised arithmetically. -/
theorem mem_enumerate_iff (nmax : ℕ) (M : ℤ × ℤ × ℤ × ℤ) :
    M ∈ enumerate_transformations nmax ↔
      ∃ a d b : ℕ, 1 ≤ a ∧ 1 ≤ d ∧ a * d ≤ nmax ∧ b < d ∧
        M = ((a : ℤ), (b : ℤ), 0, (d : ℤ)) := by
  unfold enumerate_transformations
  rw [List.mem_flatMap]
  constructor
  · rintro ⟨a, hamem, hrest⟩
    rw [List.mem_map] at hamem
    obtain ⟨a0, ha0, rfl⟩ := hamem
    rw [List.mem_range] at ha0
    rw [List.mem_flatMap] at hrest
    obtain ⟨d, hdmem, hrest2⟩ := hrest
    rw [List.mem_map] at hdmem
    obtain ⟨d0, hd0, rfl⟩ := hdmem
    rw [List.mem_range, lt_div_iff_succ_mul_le nmax (a0 + 1) d0 (by omega)] at hd0
    rw [List.mem_map] at hrest2
    obtain ⟨b, hbmem, hM⟩ := hrest2
    rw [List.mem_range] at hbmem
    refine ⟨a0 + 1, d0 + 1, b, by omega, by omega, ?_, hbmem, hM.symm⟩
    calc (a0 + 1) * (d0 + 1) = (d0 + 1) * (a0 + 1) := Nat.mul_comm _ _
    _ ≤ nmax := hd0
  · rintro ⟨a, d, b, ha, hd, hadn, hb, rfl⟩
    refine ⟨a, ?_, ?_⟩
    · rw [List.mem_map]
      have hle : a ≤ a * d := Nat.le_mul_of_pos_right a (by omega)
      exact ⟨a - 1, by rw [List.mem_range]; omega, by omega⟩
    · rw [List.mem_flatMap]
      refine ⟨d, ?_, ?_⟩
      · rw [List.mem_map]
        refine ⟨d - 1, ?_, by omega⟩
        rw [List.mem_range, lt_div_iff_succ_mul_le nmax a (d - 1) (by omega)]
        have he : d - 1 + 1 = d := by omega
        rw [he]
        calc d * a = a * d := Nat.mul_comm d a
        _ ≤ nmax := hadn
      · rw [List.mem_map]
        exact ⟨b, by rw [List.mem_range]; exact hb, rfl⟩

/-- Membership in the row span of an upper-triangular matrix. -/
theorem row_span_mem (a b d : ℤ) (v : ℤ × ℤ) :
    v ∈ row_span (a, b, 0, d) ↔ ∃ x y : ℤ, v = (x * a, x * b + y * d) := by
  simp only [row_span, Set.mem_setOf_eq]
  constructor
  · rintro ⟨x, y, rfl⟩
    exact ⟨x, y, by simp⟩
  · rintro ⟨x, y, rfl⟩
    exact ⟨x, y, by simp⟩

/-- Uniqueness of the Hermite normal form: two constrained upper-triangular
matrices with the same row span have identical parameters. -/
theorem hnf_span_inj (a b d a' b' d' : ℤ)
    (ha : 1 ≤ a) (hd : 1 ≤ d) (hb0 : 0 ≤ b) (hbd : b < d)
    (ha' : 1 ≤ a') (hd' : 1 ≤ d') (hb0' : 0 ≤ b') (hbd' : b' < d')
    (hspan : row_span (a, b, 0, d) = row_span (a', b', 0, d')) :
    a = a' ∧ b = b' ∧ d = d' := by
  have m1 : ((a' : ℤ), b') ∈ row_span (a, b, 0, d) := by
    rw [hspan, row_span_mem]
    exact ⟨1, 0, by simp⟩
  have m2 : ((a : ℤ), b) ∈ row_span (a', b', 0, d') := by
    rw [← hspan, row_span_mem]
    exact ⟨1, 0, by simp⟩
  rw [row_span_mem] at m1 m2
  obtain ⟨x, y, hxy⟩ := m1
  obtain ⟨x', y', hxy'⟩ := m2
  rw [Prod.mk.injEq] at hxy hxy'
  obtain ⟨hx1, hx2⟩ := hxy
  obtain ⟨hx1', hx2'⟩ := hxy'
  have hane : a ≠ 0 := by omega
  have hxu : x' * x = 1 := by
    have hc : (1 : ℤ) * a = (x' * x) * a := by
      rw [one_mul]
      calc a = x' * a' := hx1'
      _ = x' * (x * a) := by rw [← hx1]
      _ = x' * x * a := by ring
    exact (mul_right_cancel₀ hane hc).symm
  have hx_one : x = 1 := by
    rcases Int.mul_eq_one_iff_eq_one_or_neg_one.mp hxu with ⟨h1, h2⟩ | ⟨h1, h2⟩
    · exact h2
    · rw [h2] at hx1
      have : a' = -1 * a := hx1
      omega
  have haa : a = a' := by
    rw [hx_one, one_mul] at hx1
    omega
  have m3 : ((0 : ℤ), d') ∈ row_span (a, b, 0, d) := by
    rw [hspan, row_span_mem]
    exact ⟨0, 1, by simp⟩
  have m4 : ((0 : ℤ), d) ∈ row_span (a', b', 0, d') := by
    rw [← hspan, row_span_mem]
    exact ⟨0, 1, by simp⟩
  rw [row_span_mem] at m3 m4
  obtain ⟨u, w, huw⟩ := m3
  obtain ⟨u', w', huw'⟩ := m4
  rw [Prod.mk.injEq] at huw huw'
  obtain ⟨hu0, hw⟩ := huw
  obtain ⟨hu0', hw'⟩ := huw'
  have hu : u = 0 := by
    rcases mul_eq_zero.mp hu0.symm with h | h
    · exact h
    · omega
  have hu' : u' = 0 := by
    rcases mul_eq_zero.mp hu0'.symm with h | h
    · exact h
    · omega
  have hdd' : d ∣ d' := ⟨w, by rw [hw, hu]; ring⟩
  have hd'd : d' ∣ d := ⟨w', by rw [hw', hu']; ring⟩
  have hdeq : d = d' := Int.dvd_antisymm (by omega) (by omega) hdd' hd'd
  rw [hx_one, one_mul] at hx2
  have hy : y = 0 := by
    by_contra hy0
    rcases (by omega : 1 ≤ y ∨ y ≤ -1) with h | h
    · nlinarith [mul_le_mul_of_nonneg_right (by omega : 1 ≤ y) (by omega : (0 : ℤ) ≤ d)]
    · nlinarith [mul_le_mul_of_nonneg_right (by omega : y ≤ -1) (by omega : (0 : ℤ) ≤ d)]
  rw [hy] at hx2
  exact ⟨haa, by omega, hdeq⟩

/-- Claim C8: every matrix emitted by the (spec-modelled) Lattice Enumerator
has determinant with absolute value between 1 and nmax, and no two distinct
emitted matrices generate the same sublattice. -/
theorem C8_enumerator_correct (nmax : ℕ) (M : ℤ × ℤ × ℤ × ℤ)
    (h : M ∈ enumerate_transformations nmax) :
    (1 ≤ (det2x2 M).natAbs ∧ (det2x2 M).natAbs ≤ nmax) ∧
    ∀ N ∈ enumerate_transformations nmax, M ≠ N → row_span M ≠ row_span N := by
  obtain ⟨a, d, b, ha, hd, hadn, hb, rfl⟩ := (mem_enumerate_iff nmax M).mp h
  have hdet : det2x2 ((a : ℤ), (b : ℤ), 0, (d : ℤ)) = (a : ℤ) * d := by
    simp [det2x2]
  constructor
  · rw [hdet, Int.natAbs_mul, Int.natAbs_ofNat, Int.natAbs_ofNat]
    exact ⟨Nat.one_le_iff_ne_zero.mpr (by positivity), hadn⟩
  · intro N hN hne hspan
    obtain ⟨a', d', b', ha', hd', hadn', hb', rfl⟩ := (mem_enumerate_iff nmax N).mp hN
    have hk := hnf_span_inj (a : ℤ) (b : ℤ) (d : ℤ) (a' : ℤ) (b' : ℤ) (d' : ℤ)
      (by exact_mod_cast ha) (by exact_mod_cast hd) (by positivity) (by exact_mod_cast hb)
      (by exact_mod_cast ha') (by exact_mod_cast hd') (by positivity) (by exact_mod_cast hb')
      hspan
    exact hne (by rw [Prod.mk.injEq, Prod.mk.injEq, Prod.mk.injEq]
                  exact ⟨hk.1, hk.2.1, rfl, hk.2.2⟩)

/-- Witness for claim C8: the identity transformation is emitted for
nmax = 2 and the theorem applies to it. -/
theorem C8_witness :
    (1 ≤ (det2x2 ((1 : ℤ), (0 : ℤ), (0 : ℤ), (1 : ℤ))).natAbs ∧
      (det2x2 ((1 : ℤ), (0 : ℤ), (0 : ℤ), (1 : ℤ))).natAbs ≤ 2) ∧
    ∀ N ∈ enumerate_transformations 2,
      ((1 : ℤ), (0 : ℤ), (0 : ℤ), (1 : ℤ)) ≠ N →
        row_span (1, 0, 0, 1) ≠ row_span N :=
  C8_enumerator_correct 2 (1, 0, 0, 1) (by decide)
